import Mathlib

/-!
Verification of the WPMv2 package manager (src/WPMv2.js) against its
specification.  The JavaScript source is shallowly embedded: pure
computations become Lean functions; the stateful registries (the running
require promise maps, the descriptor and asset caches, the repository
alias storage) become explicit state-passing functions; external I/O
(network fetches, the hosting DOM) is abstracted as oracle parameters.
-/

namespace WPM

/-! ## Association lists standing in for JS `Map` objects and plain objects -/

/-- Lookup of the binding of a key, as JS `Map.get` / property read. -/
def assocLookup {β : Type} : List (String × β) → String → Option β
  | [], _ => none
  | (k, v) :: rest, key => if k = key then some v else assocLookup rest key

/-- JS `Map.set` / property write: replace the binding in place when the key
exists, otherwise append at the end (insertion order preserved). -/
def assocSet {β : Type} : List (String × β) → String → β → List (String × β)
  | [], k, v => [(k, v)]
  | (k0, v0) :: rest, k, v =>
    if k0 = k then (k, v) :: rest else (k0, v0) :: assocSet rest k v

/-! ## String helpers used by WPMv2 -/

def stripHashList : List Char → List Char
  | [] => []
  | c :: rest => if c = '#' then rest else c :: stripHashList rest

/-- JS `s.replace("#", "")`: remove the first occurrence of the hash sign. -/
def stripHash (s : String) : String := ⟨stripHashList s.data⟩

def splitOnSpaceAux : List Char → List Char → List (List Char)
  | [], acc => [acc.reverse]
  | c :: rest, acc =>
    if c = ' ' then acc.reverse :: splitOnSpaceAux rest []
    else splitOnSpaceAux rest (c :: acc)

/-- JS `s.split(" ")`: split on every single space character. -/
def splitOnSpace (s : String) : List String :=
  (splitOnSpaceAux s.data []).map (fun cs => ⟨cs⟩)

/-- JS `s.startsWith(pre)` on the character level. -/
def strStartsWith (s pre : String) : Bool := pre.data.isPrefixOf s.data

/-- JS `s.endsWith(suf)` on the character level. -/
def strEndsWith (s suf : String) : Bool := suf.data.reverse.isPrefixOf s.data.reverse

/-- Drop the last `n` characters of a string. -/
def strDropRight (s : String) (n : Nat) : String := ⟨s.data.take (s.data.length - n)⟩

/-! ## Package model (`WPMPackage`, WPMv2.js lines 1417-1565)

The descriptor JSON document is modelled as a record of optional fields:
a `some` field corresponds to `packageJson.hasOwnProperty(...)` being true.
`appendMethod`, `appendTarget` and `bootstrap` are representable in a
descriptor document but are NOT in the property list that
`updateFromJson` copies (line 1511), which matters for claim C8. -/

inductive AssetEntry
  | plain (s : String)
  | withSrc (src : String)
deriving DecidableEq

structure DescriptorJson where
  version : Option Int := none
  friendlyName : Option String := none
  dependencies : Option (List String) := none
  optionalDependencies : Option (List String) := none
  assets : Option (List AssetEntry) := none
  description : Option String := none
  changelog : Option (List (String × String)) := none
  documentationLink : Option String := none
  license : Option String := none
  appendMethod : Option String := none
  appendTarget : Option String := none
  bootstrap : Option Bool := none
deriving DecidableEq

structure WPMPackage where
  name : String
  repository : Option String
  version : Int
  dependencies : List String
  optionalDependencies : List String
  assets : List String
  description : String
  friendlyName : String
  changelog : List (String × String)
  documentationLink : String
  license : Option String
  dependencyMap : List (String × Option String)
  optionalDependencyMap : List (String × Option String)
  appendMethod : String
  appendTarget : Option String
  bootstrap : Bool
  descriptor : DescriptorJson
deriving DecidableEq

def applyOpt {α : Type} (cur : α) : Option α → α
  | none => cur
  | some v => v

/-- One dependency entry `"packageName"` or `"repositoryURL #packageName"`
(WPMv2.js lines 1527-1542): split on a space; a single part is a package in
this package's repository, otherwise part 0 is the repository and part 1 the
package name, with the first `#` stripped. -/
def parseDepEntry (repository : Option String) (dep : String) : String × Option String :=
  match splitOnSpace dep with
  | [single] => (stripHash single, repository)
  | r :: p :: _ => (stripHash p, some r)
  | [] => (stripHash dep, repository)

/-- `WPMPackage.prototype.updateFromJson` (lines 1506-1560). -/
def WPMPackage.updateFromJson (p0 : WPMPackage) (j : DescriptorJson) : WPMPackage :=
  let p1 : WPMPackage := { p0 with
    descriptor := j,
    version := applyOpt p0.version j.version,
    friendlyName := applyOpt p0.friendlyName j.friendlyName,
    dependencies := applyOpt p0.dependencies j.dependencies,
    optionalDependencies := applyOpt p0.optionalDependencies j.optionalDependencies,
    description := applyOpt p0.description j.description,
    changelog := applyOpt p0.changelog j.changelog,
    documentationLink := applyOpt p0.documentationLink j.documentationLink,
    license := match j.license with | none => p0.license | some l => some l }
  let p2 : WPMPackage := { p1 with
    assets := p1.assets ++ (match j.assets with
      | none => []
      | some entries => entries.map (fun a => match a with
          | AssetEntry.withSrc s => s
          | AssetEntry.plain s => s)) }
  let p3 : WPMPackage := { p2 with
    dependencyMap := p2.dependencies.foldl
      (fun m d =>
        let e := parseDepEntry p2.repository d
        assocSet m e.1 e.2) p2.dependencyMap }
  { p3 with
    optionalDependencyMap := p3.optionalDependencies.foldl
      (fun m d =>
        let e := parseDepEntry p3.repository d
        assocSet m e.1 e.2) p3.optionalDependencyMap }

/-- `new WPMPackage(name, repository, descriptorJson)` (lines 1424-1486). -/
def mkWPMPackage (name : String) (repository : Option String) (j : DescriptorJson) :
    WPMPackage :=
  WPMPackage.updateFromJson
    { name := name, repository := repository, version := -1, dependencies := [],
      optionalDependencies := [], assets := [], description := "", friendlyName := "",
      changelog := [], documentationLink := "", license := none,
      dependencyMap := [], optionalDependencyMap := [],
      appendMethod := "append", appendTarget := none, bootstrap := true,
      descriptor := {} } j

/-! ## Install options (`PackageOptions` bags merged with `Object.assign`)

A JS options object may carry each of the four option properties or not;
`appendTarget` and `repository` can be present with value `null` (the
process defaults do exactly that for `appendTarget`), so those two fields
are doubly optional: the outer `Option` is presence, the inner is the
nullable value. -/

structure OptionsBag where
  appendMethod : Option String := none
  appendTarget : Option (Option String) := none
  repository : Option (Option String) := none
  bootstrap : Option Bool := none
deriving DecidableEq

/-- Right-biased merge of one field, as `Object.assign` does per property. -/
def orOpt {α : Type} (a b : Option α) : Option α :=
  match b with
  | some v => some v
  | none => a

/-- `Object.assign({}, a, b)` restricted to the four install options. -/
def assignO (a b : OptionsBag) : OptionsBag :=
  { appendMethod := orOpt a.appendMethod b.appendMethod,
    appendTarget := orOpt a.appendTarget b.appendTarget,
    repository := orOpt a.repository b.repository,
    bootstrap := orOpt a.bootstrap b.bootstrap }

/-- Stand-in for `WPMv2.getLocalRepositoryURL()` (line 855), which reads the
hosting document's location; an opaque constant string in this model. -/
def localRepositoryURL : String := "location?raw"

/-- The `defaultOptions` object built at the top of `require` (lines 607-612). -/
def defaultOptionsBag : OptionsBag :=
  { appendMethod := some "append", appendTarget := some none,
    repository := some (some localRepositoryURL), bootstrap := some true }

/-- `WPMPackage.prototype.updateFromOptions` (lines 1488-1494): copy each of
`appendMethod`, `appendTarget`, `repository`, `bootstrap` from the options
object when present (`hasOwnProperty`). -/
def WPMPackage.updateFromOptions (p : WPMPackage) (o : OptionsBag) : WPMPackage :=
  let p1 := match o.appendMethod with
    | none => p
    | some v => { p with appendMethod := v }
  let p2 := match o.appendTarget with
    | none => p1
    | some v => { p1 with appendTarget := v }
  let p3 := match o.repository with
    | none => p2
    | some v => { p2 with repository := v }
  match o.bootstrap with
  | none => p3
  | some v => { p3 with bootstrap := v }

/-- `WPMPackage.prototype.getPackageOptions` (lines 1496-1504): all four
option properties are emitted, with the package's current values. -/
def WPMPackage.getPackageOptions (p : WPMPackage) : OptionsBag :=
  { appendMethod := some p.appendMethod, appendTarget := some p.appendTarget,
    repository := some p.repository, bootstrap := some p.bootstrap }

/-- The end-to-end computation of the install options used at attach time
for one directly required package given as a `{package, repository, ...}`
request entry, combining: the request normalisation `Object.assign({},
defaultOptions, pkg, overrideOptions)` of `findCompletePackageTreeSorted`
(line 491) followed by `new WPMPackage` and `updateFromOptions` (lines
492-493); the refetch in `getLatestPackageFromPackage` (lines 919-931),
which builds a fresh `WPMPackage` from the fetched descriptor document
and then applies `updateFromOptions(p.getPackageOptions())` (line 928);
and the merge `Object.assign({}, defaultOptions,
pkg.getPackageOptions(), overrideOptions)` at install time (line 668).
`reqOpts` is the option content of the request entry, `overrideOpts` the
request-time global override bag, `j` the package's descriptor document
as fetched from its repository. -/
def requireEffectiveOptions (reqOpts overrideOpts : OptionsBag) (pkgName : String)
    (j : DescriptorJson) : OptionsBag :=
  let options := assignO (assignO defaultOptionsBag reqOpts) overrideOpts
  let wpmPackage :=
    (mkWPMPackage pkgName (options.repository.getD none) {}).updateFromOptions options
  let fetched :=
    (mkWPMPackage pkgName wpmPackage.repository j).updateFromOptions
      wpmPackage.getPackageOptions
  assignO (assignO defaultOptionsBag fetched.getPackageOptions) overrideOpts

/-! ## Repository alias registry (lines 1318-1405)

The two browser storage scopes hold, under the single key
`"WPM.repoAliases"`, a JSON blob that parses either to an object (modelled
as an association list) or to garbage / a non-object (modelled as
`Blob.invalid`, which every reader replaces by the empty table). -/

inductive Blob
  | valid (t : List (String × String))
  | invalid
deriving DecidableEq

structure StorageState where
  localStore : Option Blob := none
  sessionStore : Option Blob := none
deriving DecidableEq

/-- The shared read-and-repair step: `JSON.parse` of the stored blob, with
`null` / parse failure / non-object all replaced by `{}`. -/
def parseAliases : Option Blob → List (String × String)
  | some (Blob.valid t) => t
  | _ => []

/-- `WPMv2.getRegisteredRepositories` (lines 1318-1333). -/
def getRegisteredRepositories (st : StorageState) (useLocalStorage : Bool) :
    List (String × String) :=
  parseAliases (if useLocalStorage then st.localStore else st.sessionStore)

/-- `WPMv2.registerRepository` (lines 1341-1362): read-modify-write of the
whole table, setting one key. -/
def registerRepository (st : StorageState) (aname repository : String)
    (useLocalStorage : Bool) : StorageState :=
  let t := parseAliases (if useLocalStorage then st.localStore else st.sessionStore)
  let t2 := assocSet t aname repository
  if useLocalStorage then { st with localStore := some (Blob.valid t2) }
  else { st with sessionStore := some (Blob.valid t2) }

/-- `WPMv2.unregisterRepository` (lines 1369-1393): read-modify-write of the
whole table, deleting one key. -/
def unregisterRepository (st : StorageState) (aname : String)
    (useLocalStorage : Bool) : StorageState :=
  let t := parseAliases (if useLocalStorage then st.localStore else st.sessionStore)
  let t2 := t.filter (fun kv => kv.1 != aname)
  if useLocalStorage then { st with localStore := some (Blob.valid t2) }
  else { st with sessionStore := some (Blob.valid t2) }

/-! ## Topological sorter (the loop of `findCompletePackageTreeSorted`,
WPMv2.js lines 508-544) -/

/-- `WPMv2.hasPackage(packages, {package: n})` (lines 569-581) on a list of
resolved packages: membership by package name. -/
def hasPackageName (packages : List WPMPackage) (n : String) : Bool :=
  packages.any (fun p => p.name = n)

/-- The readiness test of one pass of the sorting loop (lines 511-530): every
hard dependency name must already be placed in `sortedPackages`, and every
optional dependency name must be placed or absent from the remaining
`convertedPackages`. -/
def readyPkg (sortedPackages convertedPackages : List WPMPackage) (pkg : WPMPackage) :
    Bool :=
  (pkg.dependencyMap.all fun dep => hasPackageName sortedPackages dep.1) &&
  (pkg.optionalDependencyMap.all fun dep =>
    hasPackageName sortedPackages dep.1 || !hasPackageName convertedPackages dep.1)

/-- The fixed-point extraction loop (lines 508-542).  One recursive step is
one `while` pass: it moves every ready package from `convertedPackages` to
the end of `sortedPackages`, and the loop stops when the remaining set is
empty or a pass places nothing (`lastLength` unchanged).  The fuel only
bounds the number of passes; `sortClosure` supplies enough for the loop to
always stop through one of its own exits. -/
def sortPackages : Nat → List WPMPackage → List WPMPackage → List WPMPackage
  | 0, sortedPackages, _ => sortedPackages
  | fuel + 1, sortedPackages, convertedPackages =>
    if convertedPackages.isEmpty then sortedPackages
    else
      let ready := convertedPackages.filter (readyPkg sortedPackages convertedPackages)
      if ready.isEmpty then sortedPackages
      else
        sortPackages fuel (sortedPackages ++ ready)
          (convertedPackages.filter (fun p => !readyPkg sortedPackages convertedPackages p))

/-- The sorting stage of `findCompletePackageTreeSorted` applied to a
resolved closure (`convertedPackages`, starting from an empty
`sortedPackages`). -/
def sortClosure (closure : List WPMPackage) : List WPMPackage :=
  sortPackages (closure.length + 1) [] closure

/-- Invariant of the placed list: every placed package's hard dependency
names all appear strictly earlier, and its optional dependency names that
belong to the closure do too. -/
def placedOK (closureNames : List String) (L : List WPMPackage) : Prop :=
  ∀ i X, L[i]? = some X →
    (∀ dep ∈ X.dependencyMap, dep.1 ∈ (L.take i).map WPMPackage.name) ∧
    (∀ dep ∈ X.optionalDependencyMap, dep.1 ∈ closureNames →
      dep.1 ∈ (L.take i).map WPMPackage.name)

/-! ## Dependency resolver (`addPackage` inside `findCompletePackageTreeSorted`,
WPMv2.js lines 407-451)

The network is abstracted as an oracle from a package name to the
descriptor document that `getLatestPackageFromPackage` would produce for
it; `none` is a fetch failure, which the `catch` in `addPackage` (line
447) turns into skipping that package while resolution continues.  The
element id of a fetched package node always equals the requested name
(`getPackageDOM` queries by id, lines 867-887), so the resolved package
carries the requested name.  Repositories do not influence the recursion
and are abstracted away (the oracle is keyed by name alone). -/

structure ResState where
  alreadySorting : List String := []
  converted : List WPMPackage := []
deriving DecidableEq

/-- `addPackage` (lines 425-451): guard on the currently-resolving name list
(`alreadySorting`), then fetch the authoritative descriptor, recurse into
the hard dependencies (`findAllDependencies`, lines 553-563, walks
`dependencyMap`), and finally push the resolved package onto
`convertedPackages`.  The fuel bounds only the recursion depth. -/
def addPackage (fetchO : String → Option DescriptorJson) :
    Nat → ResState → String → ResState
  | 0, st, _ => st
  | fuel + 1, st, name =>
    if name ∈ st.alreadySorting then st
    else
      let st1 : ResState := { st with alreadySorting := st.alreadySorting ++ [name] }
      match fetchO name with
      | none => st1
      | some j =>
        let pkg := mkWPMPackage name none j
        let st2 := (pkg.dependencyMap.map Prod.fst).foldl (addPackage fetchO fuel) st1
        { st2 with converted := st2.converted ++ [pkg] }

/-- Resolution of a whole request list: the `packages.map` stage of
`findCompletePackageTreeSorted` (lines 454-506) feeding every request
through `addPackage`, starting from an empty resolver state. -/
def findClosure (fetchO : String → Option DescriptorJson) (fuel : Nat)
    (names : List String) : ResState :=
  names.foldl (addPackage fetchO fuel) {}

/-- Resolver state invariant: resolved package names are unique and are all
recorded in the currently-resolving name list. -/
def ResInv (st : ResState) : Prop :=
  (st.converted.map WPMPackage.name).Nodup ∧
  (∀ n ∈ st.converted.map WPMPackage.name, n ∈ st.alreadySorting)

/-- How one resolver call may transform the state: both lists only grow, and
every newly resolved name was not previously in the currently-resolving
name list. -/
def ResStep (st st2 : ResState) : Prop :=
  (∃ t, st2.alreadySorting = st.alreadySorting ++ t) ∧
  (∃ c, st2.converted = st.converted ++ c) ∧
  (∀ n, n ∈ st2.converted.map WPMPackage.name →
    n ∉ st.converted.map WPMPackage.name → n ∉ st.alreadySorting)

/-- The cyclic descriptor graph A → B → A. -/
def cycleFetch : String → Option DescriptorJson := fun n =>
  if n = "A" then some { dependencies := some ["B"] }
  else if n = "B" then some { dependencies := some ["A"] }
  else none

/-- The diamond descriptor graph: A and B both require C. -/
def diamondFetch : String → Option DescriptorJson := fun n =>
  if n = "A" then some { dependencies := some ["C"] }
  else if n = "B" then some { dependencies := some ["C"] }
  else if n = "C" then some { dependencies := some [] }
  else none

/-! ## Install phase of `require` (WPMv2.js lines 606-819)

Each package of the sorted tree gets an install task (lines 661-796)
whose body refetches the package DOM (`getPackageDOM` throws when the
package cannot be found, lines 876-879), attaches it, synchronises assets
over the network and runs activation; the body contains no exception
handler, and `require` awaits all task promises with `Promise.all` (line
801) without a try/catch, so any task rejection propagates out of the
top-level call.  The fallible body of one task is abstracted as an oracle
from the package name to an `Except` outcome; resolution-phase fetch
failures are modelled separately by the resolver oracle returning
`none`. -/

instance : DecidableEq (Except String Unit) := fun a b =>
  match a, b with
  | Except.ok (), Except.ok () => isTrue rfl
  | Except.error e1, Except.error e2 =>
    if h : e1 = e2 then isTrue (h ▸ rfl) else isFalse (fun hh => h (Except.error.inj hh))
  | Except.ok (), Except.error _ => isFalse (fun hh => Except.noConfusion hh)
  | Except.error _, Except.ok () => isFalse (fun hh => Except.noConfusion hh)

def installPhase (step : String → Except String Unit) :
    List WPMPackage → Except String Unit
  | [] => Except.ok ()
  | p :: rest =>
    match step p.name with
    | Except.ok _ => installPhase step rest
    | Except.error e => Except.error e

/-- The top-level `require` pipeline: resolve the closure, sort it, then
run the install tasks and propagate the combined outcome (`await
Promise.all`, line 801). -/
def requireModel (fetchO : String → Option DescriptorJson)
    (step : String → Except String Unit) (fuel : Nat) (names : List String) :
    Except String Unit :=
  installPhase step (sortClosure (findClosure fetchO fuel names).converted)

/-- Oracle for the C4 scenarios: packages A and C resolve (independent, no
dependencies), B fails to fetch. -/
def fetchABC : String → Option DescriptorJson := fun n =>
  if n = "A" then some {} else if n = "C" then some {} else none

/-- Install-step oracle that fails exactly on package A. -/
def stepFailA : String → Except String Unit := fun n =>
  if n = "A" then Except.error "boom" else Except.ok ()

/-- Install-step oracle that always succeeds. -/
def stepOkAll : String → Except String Unit := fun _ => Except.ok ()

/-! ## Descriptor and asset caches (`fetchDom` lines 1079-1138 and
`fetchAssets` lines 1002-1046), event level

A fetch is split into its start (the synchronous part up to issuing the
network request) and its completion, to expose in-flight behaviour.
Documents and manifests are abstracted as numbers, `Date.now()` as a
natural-number clock passed to each event, and each issued network
request is appended to `netLog`.  `fetchDom` stores the fetch PROMISE in
`domCache` before awaiting it (line 1131), so a second start during
flight finds a pending entry and awaits the same promise; the staleness
re-check after the await (line 1105) runs when the caller resumes at
completion, against the timestamp freshly recorded at completion (line
1127).  `fetchAssets` stores only the COMPLETED result (lines
1040-1043), so its cache never holds a pending entry. -/

inductive DomEntry
  | pending (id : Nat)
  | done (dom : Nat) (ts : Nat)
deriving DecidableEq

structure FetchCaches where
  domCache : List (String × DomEntry) := []
  assetsCache : List (String × (Nat × Nat)) := []
  netLog : List (String × Nat) := []
  nextId : Nat := 0
deriving DecidableEq

inductive DomFetchResult
  | hit (dom : Nat)
  | joined (id : Nat)
  | started (id : Nat)
deriving DecidableEq

/-- `WPMv2.cacheTimeout` (line 1411): the 5000 ms staleness window. -/
def cacheTimeout : Nat := 5000

/-- The synchronous part of `fetchDom` for an already-resolved URL (lines
1101-1133): return a completed cache entry younger than the window, share
a pending fetch, otherwise record a new pending fetch and issue the
network request. -/
def domFetchStart (st : FetchCaches) (url : String) (now : Nat) :
    DomFetchResult × FetchCaches :=
  match assocLookup st.domCache url with
  | some (DomEntry.done d ts) =>
    if now - ts < cacheTimeout then (DomFetchResult.hit d, st)
    else
      (DomFetchResult.started st.nextId,
        { st with
            domCache := assocSet st.domCache url (DomEntry.pending st.nextId)
            netLog := st.netLog ++ [(url, now)]
            nextId := st.nextId + 1 })
  | some (DomEntry.pending pid) => (DomFetchResult.joined pid, st)
  | none =>
    (DomFetchResult.started st.nextId,
      { st with
          domCache := assocSet st.domCache url (DomEntry.pending st.nextId)
          netLog := st.netLog ++ [(url, now)]
          nextId := st.nextId + 1 })

/-- Completion of a `fetchDom` network request: the promise resolves with
the parsed document and the completion timestamp (lines 1125-1128). -/
def domFetchComplete (st : FetchCaches) (pid : Nat) (dom : Nat) (now : Nat) :
    FetchCaches :=
  { st with domCache := st.domCache.map (fun e =>
      if e.2 = DomEntry.pending pid then (e.1, DomEntry.done dom now) else e) }

inductive AssetsFetchResult
  | hit (assets : Nat)
  | started
deriving DecidableEq

/-- The synchronous part of `fetchAssets` (lines 1016-1026): return a cache
entry younger than the window, otherwise issue the network request; the
cache is NOT updated until completion, and holds no pending marker. -/
def assetsFetchStart (st : FetchCaches) (url : String) (now : Nat) :
    AssetsFetchResult × FetchCaches :=
  match assocLookup st.assetsCache url with
  | some (a, ts) =>
    if now - ts < cacheTimeout then (AssetsFetchResult.hit a, st)
    else (AssetsFetchResult.started, { st with netLog := st.netLog ++ [(url, now)] })
  | none => (AssetsFetchResult.started, { st with netLog := st.netLog ++ [(url, now)] })

/-- Completion of a `fetchAssets` network request (lines 1040-1043). -/
def assetsFetchComplete (st : FetchCaches) (url : String) (assets : Nat) (now : Nat) :
    FetchCaches :=
  { st with assetsCache := assocSet st.assetsCache url (assets, now) }

/-! ## `fetchDom` with repository aliases (lines 1048-1138), sequential view

For the alias-resolution claims the cache is modelled at call
granularity: one top-level call executes to completion at a single
instant `now` (the in-flight dimension is covered by the event-level
model above).  The repository alias tables of the two storage scopes are
an environment; the network is a deterministic oracle from URL to an
optional document (abstracted as a number), `none` being a failed or
null response.  A rejected fetch promise stays in `domCache` forever
(line 1131) and every later lookup of that key re-throws from the
`await` (line 1104) before any staleness check or refetch, modelled by
`SeqEntry.failed`.  The third result component is the list of issued
network requests. -/

inductive AliasVal
  | str (s : String)
  | arr (us : List String)
deriving DecidableEq

structure AliasEnv where
  localAliases : List (String × AliasVal) := []
  sessionAliases : List (String × AliasVal) := []
deriving DecidableEq

/-- `WPMv2.lookupRepoAlias` (lines 1048-1077): the durable table wins over
the session table; unregistered names that look like URLs pass through;
anything else expands to the default ordered candidate pair. -/
def lookupRepoAlias (env : AliasEnv) (aname : String) : AliasVal :=
  match assocLookup env.localAliases aname with
  | some v => v
  | none =>
    match assocLookup env.sessionAliases aname with
    | some v => v
    | none =>
      if strStartsWith aname "http" || strStartsWith aname "/" then AliasVal.str aname
      else AliasVal.arr ["/" ++ aname ++ "/?raw", "/" ++ aname ++ "/index.html"]

inductive SeqEntry
  | ok (dom : Nat) (ts : Nat)
  | failed
deriving DecidableEq

/-- The `?raw` normalisation of `fetchDom` (lines 1097-1099). -/
def fixRawSuffix (u : String) : String :=
  if strEndsWith u "?raw" && !strEndsWith u "/?raw" then strDropRight u 4 ++ "/?raw"
  else u

/-- The candidate loop of `fetchDom` for an alias resolving to a list
(lines 1083-1095): try each candidate in order with the recursive fetch
`f`, return the first success, fall through to `null` when all fail. -/
def fetchDomListAux (f : List (String × SeqEntry) → String →
      Option Nat × List (String × SeqEntry) × List String) :
    List (String × SeqEntry) → List String →
      Option Nat × List (String × SeqEntry) × List String
  | st, [] => (none, st, [])
  | st, u :: rest =>
    match f st u with
    | (some d, st2, g) => (some d, st2, g)
    | (none, st2, g) =>
      let r := fetchDomListAux f st2 rest
      (r.1, r.2.1, g ++ r.2.2)

/-- `WPMv2.fetchDom` (lines 1079-1138), sequential: alias resolution first
(line 1081), then either the candidate loop or the `?raw` normalisation
followed by the cached / fresh single-URL fetch. -/
def fetchDomSeq (env : AliasEnv) (net : String → Option Nat) :
    Nat → List (String × SeqEntry) → String → Nat →
      Option Nat × List (String × SeqEntry) × List String
  | 0, st, _, _ => (none, st, [])
  | fuel + 1, st, url, now =>
    match lookupRepoAlias env url with
    | AliasVal.arr us =>
      fetchDomListAux (fun s u => fetchDomSeq env net fuel s u now) st us
    | AliasVal.str u0 =>
      match assocLookup st (fixRawSuffix u0) with
      | some (SeqEntry.ok d ts) =>
        if now - ts < cacheTimeout then (some d, st, [])
        else
          match net (fixRawSuffix u0) with
          | some d2 =>
            (some d2, assocSet st (fixRawSuffix u0) (SeqEntry.ok d2 now),
              [fixRawSuffix u0])
          | none =>
            (none, assocSet st (fixRawSuffix u0) SeqEntry.failed, [fixRawSuffix u0])
      | some SeqEntry.failed => (none, st, [])
      | none =>
        match net (fixRawSuffix u0) with
        | some d2 =>
          (some d2, assocSet st (fixRawSuffix u0) (SeqEntry.ok d2 now),
            [fixRawSuffix u0])
        | none =>
          (none, assocSet st (fixRawSuffix u0) SeqEntry.failed, [fixRawSuffix u0])

/-- A sequential cache state agrees with the network as observed at instant
`t0`: successful entries carry the oracle's document and timestamp `t0`,
failed entries mark URLs the oracle fails on. -/
def SeqAgrees (net : String → Option Nat) (t0 : Nat)
    (st : List (String × SeqEntry)) : Prop :=
  ∀ u e, assocLookup st u = some e →
    match e with
    | SeqEntry.ok d ts => net u = some d ∧ ts = t0
    | SeqEntry.failed => net u = none

/-- Entry-preserving cache growth. -/
def SeqExtends (st1 st2 : List (String × SeqEntry)) : Prop :=
  ∀ u e, assocLookup st1 u = some e → assocLookup st2 u = some e

/-- Network oracle for the C7 scenarios: only `/a/?raw` resolves. -/
def netA : String → Option Nat := fun u => if u = "/a/?raw" then some 7 else none

/-- Network oracle where the first default candidate of alias `b` fails and
the second succeeds. -/
def netB : String → Option Nat := fun u => if u = "/b/index.html" then some 9 else none

/-- Concrete package used to exercise the sorter: its hard dependency `Y`
does not resolve to any closure member. -/
def pkgMissingDep : WPMPackage := mkWPMPackage "X" none { dependencies := some ["Y"] }

/-- Concrete package `A` with hard dependency `B`. -/
def pkgDepB : WPMPackage := mkWPMPackage "A" none { dependencies := some ["B"] }

/-- Concrete package `B` with no dependencies. -/
def pkgB : WPMPackage := mkWPMPackage "B" none {}

/-! ## Cross-request install deduplication (`require`, lines 606-819)

`runningRequiresPromiseMap` (line 28) is the process-wide list of the
promise maps of the currently running require calls.  A top-level require
pushes its own new map (line 641) and then, synchronously for each
package of its sorted tree, scans ALL running maps in order for an
existing promise for that package name (lines 649-655): it links to the
first one found, or otherwise starts the install task body (lines
661-796, the attach/activate side effects) and records its promise
(lines 658, 661).  When its own `Promise.all` resolves, the call splices
its map out (line 804).  The scheduling loop contains no suspension
point, so one whole require start is a single atomic step of the
process.  Task identities are modelled by a counter; every task creation
(one run of the side-effecting body) is appended to `creations`. -/

structure ReqState where
  maps : List (List (String × Nat)) := []
  counter : Nat := 0
  creations : List (String × Nat) := []
deriving DecidableEq

/-- The scan over `runningRequiresPromiseMap` (lines 649-655): the first
map containing the name wins. -/
def scanMaps : List (List (String × Nat)) → String → Option Nat
  | [], _ => none
  | m :: rest, n =>
    match assocLookup m n with
    | some t => some t
    | none => scanMaps rest n

/-- Processing of one package of the sorted tree inside the require loop:
the accumulator is (own promise map, task counter, creation log); the own
map is scanned last, matching its position at the end of the running
list. -/
def processName (others : List (List (String × Nat)))
    (acc : List (String × Nat) × Nat × List (String × Nat)) (n : String) :
    List (String × Nat) × Nat × List (String × Nat) :=
  match scanMaps (others ++ [acc.1]) n with
  | some t => (assocSet acc.1 n t, acc.2.1, acc.2.2)
  | none => (assocSet acc.1 n acc.2.1, acc.2.1 + 1, acc.2.2 ++ [(n, acc.2.1)])

/-- One top-level require call reaching its scheduling loop with the given
sorted tree names: push the new map, process every name, publish the
updated state. -/
def startRequire (s : ReqState) (names : List String) : ReqState :=
  let acc := names.foldl (processName s.maps) ([], s.counter, s.creations)
  { maps := s.maps ++ [acc.1], counter := acc.2.1, creations := acc.2.2 }

/-- Completion of the require call whose map sits at index `i`: the splice
of line 804. -/
def endRequire (s : ReqState) (i : Nat) : ReqState :=
  { s with maps := s.maps.eraseIdx i }

inductive ReqOp
  | start (names : List String)
  | done (i : Nat)

def execOp (s : ReqState) : ReqOp → ReqState
  | ReqOp.start ns => startRequire s ns
  | ReqOp.done i => endRequire s i

/-- A whole history of require starts and completions from process start. -/
def execOps (ops : List ReqOp) : ReqState := ops.foldl execOp {}

/-- Invariant of the cross-request scheduler state: every promise recorded
in a running map is a logged creation below the counter, creations are
below the counter with pairwise distinct task identities, and any two
running maps agree on the task bound to any name. -/
def ReqInvariant (s : ReqState) : Prop :=
  (∀ m ∈ s.maps, ∀ p t, assocLookup m p = some t →
    t < s.counter ∧ (p, t) ∈ s.creations) ∧
  (∀ p t, (p, t) ∈ s.creations → t < s.counter) ∧
  (s.creations.map Prod.snd).Nodup ∧
  (∀ m1 ∈ s.maps, ∀ m2 ∈ s.maps, ∀ p t1 t2,
    assocLookup m1 p = some t1 → assocLookup m2 p = some t2 → t1 = t2)

/-- Invariant of the scheduling-loop accumulator relative to the base state
at the start of the loop. -/
def FoldInv (base : ReqState)
    (acc : List (String × Nat) × Nat × List (String × Nat)) : Prop :=
  base.counter ≤ acc.2.1 ∧
  (∀ p t, assocLookup acc.1 p = some t → t < acc.2.1 ∧ (p, t) ∈ acc.2.2) ∧
  (∀ p t, (p, t) ∈ acc.2.2 → t < acc.2.1) ∧
  (acc.2.2.map Prod.snd).Nodup ∧
  (∃ newc, acc.2.2 = base.creations ++ newc) ∧
  (∀ p t, assocLookup acc.1 p = some t →
    ∀ m ∈ base.maps, ∀ t2, assocLookup m p = some t2 → t = t2)

/-! ## Lemmas about association lists -/

theorem assocLookup_assocSet_self {β : Type} (m : List (String × β)) (k : String) (v : β) :
    assocLookup (assocSet m k v) k = some v := by
  induction m with
  | nil => simp [assocSet, assocLookup]
  | cons hd tl ih =>
    obtain ⟨k0, v0⟩ := hd
    by_cases h : k0 = k
    · simp [assocSet, h, assocLookup]
    · simp [assocSet, h, assocLookup, ih]

theorem assocLookup_assocSet_other {β : Type} (m : List (String × β)) (k k2 : String)
    (v : β) (h : k2 ≠ k) : assocLookup (assocSet m k v) k2 = assocLookup m k2 := by
  have hk : ¬ k = k2 := fun hh => h hh.symm
  induction m with
  | nil => simp [assocSet, assocLookup, hk]
  | cons hd tl ih =>
    obtain ⟨k0, v0⟩ := hd
    by_cases h0 : k0 = k
    · have hk0 : ¬ k0 = k2 := fun hh => hk (h0 ▸ hh)
      simp [assocSet, h0, assocLookup, hk, hk0]
    · simp [assocSet, h0, assocLookup, ih]

theorem assocLookup_filter_ne_self (m : List (String × String)) (k : String) :
    assocLookup (m.filter (fun kv => kv.1 != k)) k = none := by
  induction m with
  | nil => simp [assocLookup]
  | cons hd tl ih =>
    obtain ⟨k0, v0⟩ := hd
    by_cases h0 : k0 = k
    · simp [List.filter_cons, h0, ih]
    · simp [List.filter_cons, h0, assocLookup, ih]

theorem assocLookup_filter_ne_other (m : List (String × String)) (k k2 : String)
    (h : k2 ≠ k) :
    assocLookup (m.filter (fun kv => kv.1 != k)) k2 = assocLookup m k2 := by
  induction m with
  | nil => simp [assocLookup]
  | cons hd tl ih =>
    obtain ⟨k0, v0⟩ := hd
    by_cases h0 : k0 = k
    · have hk0 : ¬ k0 = k2 := fun hh => h (by rw [← hh, h0])
      have hk : ¬ k = k2 := fun hh => h hh.symm
      simp [List.filter_cons, h0, assocLookup, hk0, hk, ih]
    · simp [List.filter_cons, h0, assocLookup, ih]

/-! ## Claim C9: `updateFromOptions` frame property -/

/-- C9: for every `WPMPackage` and options object, `updateFromOptions`
modifies at most `appendMethod`, `appendTarget`, `repository` and
`bootstrap`; every other field of the package is unchanged. -/
theorem updateFromOptions_frame (p : WPMPackage) (o : OptionsBag) :
    (p.updateFromOptions o).name = p.name ∧
    (p.updateFromOptions o).version = p.version ∧
    (p.updateFromOptions o).dependencies = p.dependencies ∧
    (p.updateFromOptions o).optionalDependencies = p.optionalDependencies ∧
    (p.updateFromOptions o).assets = p.assets ∧
    (p.updateFromOptions o).dependencyMap = p.dependencyMap ∧
    (p.updateFromOptions o).optionalDependencyMap = p.optionalDependencyMap ∧
    (p.updateFromOptions o).description = p.description ∧
    (p.updateFromOptions o).friendlyName = p.friendlyName ∧
    (p.updateFromOptions o).changelog = p.changelog ∧
    (p.updateFromOptions o).documentationLink = p.documentationLink ∧
    (p.updateFromOptions o).license = p.license ∧
    (p.updateFromOptions o).descriptor = p.descriptor := by
  obtain ⟨am, atg, rep, bs⟩ := o
  cases am <;> cases atg <;> cases rep <;> cases bs <;>
    simp [WPMPackage.updateFromOptions]

/-! ## Claim C10: the alias registry operations -/

/-- C10: for every storage state, alias, repository and scope, after
`registerRepository` the returned table maps the alias to the repository
and every other alias exactly as before; after `unregisterRepository` the
alias is absent and every other alias is unchanged. -/
theorem register_unregister_repository_spec (st : StorageState) (a b repo : String)
    (scope : Bool) :
    assocLookup (getRegisteredRepositories (registerRepository st a repo scope) scope) a
      = some repo ∧
    (b ≠ a →
      assocLookup (getRegisteredRepositories (registerRepository st a repo scope) scope) b
        = assocLookup (getRegisteredRepositories st scope) b) ∧
    assocLookup (getRegisteredRepositories (unregisterRepository st a scope) scope) a
      = none ∧
    (b ≠ a →
      assocLookup (getRegisteredRepositories (unregisterRepository st a scope) scope) b
        = assocLookup (getRegisteredRepositories st scope) b) := by
  cases scope <;>
    refine ⟨?_, fun hb => ?_, ?_, fun hb => ?_⟩ <;>
      simp only [getRegisteredRepositories, registerRepository, unregisterRepository,
        parseAliases, Bool.false_eq_true, if_false, if_true] <;>
      first
        | exact assocLookup_assocSet_self _ _ _
        | exact assocLookup_assocSet_other _ _ _ _ hb
        | exact assocLookup_filter_ne_self _ _
        | exact assocLookup_filter_ne_other _ _ _ hb

theorem sortPackages_succ (fuel : Nat) (sorted remaining : List WPMPackage) :
    sortPackages (fuel + 1) sorted remaining =
      if remaining.isEmpty then sorted
      else if (remaining.filter (readyPkg sorted remaining)).isEmpty then sorted
      else sortPackages fuel (sorted ++ remaining.filter (readyPkg sorted remaining))
        (remaining.filter (fun p => !readyPkg sorted remaining p)) := rfl

theorem hasPackageName_iff (l : List WPMPackage) (n : String) :
    hasPackageName l n = true ↔ n ∈ l.map WPMPackage.name := by
  rw [hasPackageName, List.any_eq_true]
  constructor
  · rintro ⟨p, hp, he⟩
    exact List.mem_map.mpr ⟨p, hp, by simpa using he⟩
  · intro hm
    obtain ⟨p, hp, he⟩ := List.mem_map.mp hm
    exact ⟨p, hp, by simpa using he⟩

theorem placedOK_append (cn : List String) (sorted ready remaining : List WPMPackage)
    (h1 : placedOK cn sorted)
    (hready : ∀ p ∈ ready, readyPkg sorted remaining p = true)
    (hperm : (sorted.map WPMPackage.name ++ remaining.map WPMPackage.name).Perm cn) :
    placedOK cn (sorted ++ ready) := by
  intro i X hX
  by_cases hi : i < sorted.length
  · have hX2 : sorted[i]? = some X := by
      rw [← List.getElem?_append_left hi]
      exact hX
    have htake : (sorted ++ ready).take i = sorted.take i :=
      List.take_append_of_le_length (Nat.le_of_lt hi)
    rw [htake]
    exact h1 i X hX2
  · have hilen : sorted.length ≤ i := Nat.le_of_not_lt hi
    have hX2 : ready[i - sorted.length]? = some X := by
      rw [← List.getElem?_append_right hilen]
      exact hX
    have hmem : X ∈ ready := List.mem_iff_getElem?.mpr ⟨_, hX2⟩
    have hr := hready _ hmem
    have hsortedsub : ∀ n, n ∈ sorted.map WPMPackage.name →
        n ∈ ((sorted ++ ready).take i).map WPMPackage.name := by
      intro n hn
      have hts : sorted.take i = sorted := List.take_of_length_le hilen
      rw [List.take_append_eq_append_take, hts]
      simp only [List.map_append, List.mem_append]
      exact Or.inl hn
    simp only [readyPkg, Bool.and_eq_true, List.all_eq_true] at hr
    constructor
    · intro dep hdep
      exact hsortedsub _ ((hasPackageName_iff _ _).mp (hr.1 dep hdep))
    · intro dep hdep hcn
      rcases Bool.or_eq_true _ _ |>.mp (hr.2 dep hdep) with hs | hnr
      · exact hsortedsub _ ((hasPackageName_iff _ _).mp hs)
      · have hnotrem : dep.1 ∉ remaining.map WPMPackage.name := by
          intro hmem2
          rw [Bool.not_eq_true'] at hnr
          exact absurd ((hasPackageName_iff _ _).mpr hmem2) (by simp [hnr])
        have hboth : dep.1 ∈ sorted.map WPMPackage.name ++ remaining.map WPMPackage.name :=
          hperm.mem_iff.mpr hcn
        rcases List.mem_append.mp hboth with hs2 | hr2
        · exact hsortedsub _ hs2
        · exact absurd hr2 hnotrem

/-- C10 witness: the registry properties at a concrete state and aliases. -/
theorem register_unregister_repository_spec_witness :
    assocLookup (getRegisteredRepositories
        (registerRepository { localStore := none, sessionStore := none } "alpha" "repoA" true)
        true) "alpha" = some "repoA" ∧
    assocLookup (getRegisteredRepositories
        (registerRepository { localStore := none, sessionStore := none } "alpha" "repoA" true)
        true) "beta"
      = assocLookup (getRegisteredRepositories
        { localStore := none, sessionStore := none } true) "beta" := by
  have h := register_unregister_repository_spec
    { localStore := none, sessionStore := none } "alpha" "beta" "repoA" true
  exact ⟨h.1, h.2.1 (by decide)⟩

theorem sortPackages_main (cn : List String) :
    ∀ fuel sorted remaining,
      placedOK cn sorted →
      (sorted.map WPMPackage.name ++ remaining.map WPMPackage.name).Perm cn →
      placedOK cn (sortPackages fuel sorted remaining) ∧
      ∃ rest, ((sortPackages fuel sorted remaining).map WPMPackage.name ++ rest).Perm cn := by
  intro fuel
  induction fuel with
  | zero =>
    intro sorted remaining h1 h2
    exact ⟨h1, remaining.map WPMPackage.name, h2⟩
  | succ fuel ih =>
    intro sorted remaining h1 h2
    rw [sortPackages_succ]
    by_cases hemp : remaining.isEmpty = true
    · rw [if_pos hemp]
      exact ⟨h1, remaining.map WPMPackage.name, h2⟩
    · rw [if_neg hemp]
      by_cases hrd : (remaining.filter (readyPkg sorted remaining)).isEmpty = true
      · rw [if_pos hrd]
        exact ⟨h1, remaining.map WPMPackage.name, h2⟩
      · rw [if_neg hrd]
        apply ih
        · exact placedOK_append cn sorted _ remaining h1
            (fun p hp => (List.mem_filter.mp hp).2) h2
        · have hsplit :
              ((remaining.filter (readyPkg sorted remaining)).map WPMPackage.name ++
               (remaining.filter (fun p => !readyPkg sorted remaining p)).map
                 WPMPackage.name).Perm
              (remaining.map WPMPackage.name) := by
            rw [← List.map_append]
            exact (List.filter_append_perm _ remaining).map WPMPackage.name
          have heq :
              (sorted ++ remaining.filter (readyPkg sorted remaining)).map WPMPackage.name ++
                (remaining.filter (fun p => !readyPkg sorted remaining p)).map
                  WPMPackage.name
              = sorted.map WPMPackage.name ++
                ((remaining.filter (readyPkg sorted remaining)).map WPMPackage.name ++
                 (remaining.filter (fun p => !readyPkg sorted remaining p)).map
                   WPMPackage.name) := by
            simp [List.map_append, List.append_assoc]
          rw [heq]
          exact (List.Perm.append_left _ hsplit).trans h2

theorem sortClosure_main (closure : List WPMPackage) :
    placedOK (closure.map WPMPackage.name) (sortClosure closure) ∧
    ∃ rest, ((sortClosure closure).map WPMPackage.name ++ rest).Perm
      (closure.map WPMPackage.name) :=
  sortPackages_main (closure.map WPMPackage.name) (closure.length + 1) [] closure
    (fun _ _ h => absurd h (by simp)) (by simp)

theorem nodup_getElem_mem_take_lt {ns : List String} (hnd : ns.Nodup) {i j : Nat}
    {y : String} (hj : ns[j]? = some y) (hmem : y ∈ ns.take i) : j < i := by
  obtain ⟨hjlen, hjv⟩ := List.getElem?_eq_some_iff.mp hj
  obtain ⟨k, hk, hkv⟩ := List.mem_iff_getElem.mp hmem
  have hbounds : k < ns.length ∧ k < i := by
    have hh := hk
    simp only [List.length_take] at hh
    omega
  have hkv2 : ns[k] = y := by
    rw [← hkv]
    exact (List.getElem_take ns).symm
  have hkj : k = j := hnd.getElem_inj_iff.mp (hkv2.trans hjv.symm)
  omega

/-- C2: for every closure with unique package names, the order returned by
the sorter places every package strictly after each of its hard
dependencies that is placed, and strictly after each of its optional
dependencies that is placed (optional dependencies in the closure are
always placed before their dependents). -/
theorem sortClosure_topological (closure : List WPMPackage)
    (hnd : (closure.map WPMPackage.name).Nodup)
    (X Y : WPMPackage) (i j : Nat) (r : Option String)
    (hi : (sortClosure closure)[i]? = some X)
    (hj : (sortClosure closure)[j]? = some Y)
    (hdep : (Y.name, r) ∈ X.dependencyMap ∨ (Y.name, r) ∈ X.optionalDependencyMap) :
    j < i := by
  obtain ⟨hpl, rest, hperm⟩ := sortClosure_main closure
  have hndres : ((sortClosure closure).map WPMPackage.name).Nodup :=
    (hperm.nodup_iff.mpr hnd).of_append_left
  have hYbefore : Y.name ∈ ((sortClosure closure).take i).map WPMPackage.name := by
    rcases hdep with hh | hh
    · exact (hpl i X hi).1 (Y.name, r) hh
    · have hYres : Y.name ∈ (sortClosure closure).map WPMPackage.name :=
        List.mem_map.mpr ⟨Y, List.mem_iff_getElem?.mpr ⟨j, hj⟩, rfl⟩
      have hYcn : Y.name ∈ closure.map WPMPackage.name :=
        hperm.mem_iff.mp (List.mem_append.mpr (Or.inl hYres))
      exact (hpl i X hi).2 (Y.name, r) hh hYcn
  have hjname : ((sortClosure closure).map WPMPackage.name)[j]? = some Y.name := by
    rw [List.getElem?_map, hj]
    rfl
  have hmem : Y.name ∈ ((sortClosure closure).map WPMPackage.name).take i := by
    rw [← List.map_take]
    exact hYbefore
  exact nodup_getElem_mem_take_lt hndres hjname hmem

/-- C2 witness: sorting the closure `[A, B]` where `A` hard-depends on `B`
places `B` at position 0 and `A` at position 1. -/
theorem sortClosure_topological_witness :
    (sortClosure [pkgDepB, pkgB])[1]? = some pkgDepB ∧
    (sortClosure [pkgDepB, pkgB])[0]? = some pkgB ∧
    (0 : Nat) < 1 := by
  refine ⟨by decide, by decide, ?_⟩
  exact sortClosure_topological [pkgDepB, pkgB] (by decide) pkgDepB pkgB 1 0 none
    (by decide) (by decide) (Or.inl (by decide))

/-- C3 counterexample: the closure consisting only of `pkgMissingDep`, whose
hard dependency name `Y` is absent from the closure, sorts to a list that
does NOT contain the dependent package: the absent hard dependency blocks
placement instead of counting as already satisfied. -/
theorem sortClosure_missing_dep_counterexample :
    pkgMissingDep ∉ sortClosure [pkgMissingDep] := by decide

/-- C3 amended: a hard dependency name that is absent from the closure is a
blocker for the sorter, not an already-satisfied constraint: any package of
the closure with such a hard dependency is left in the unorderable
remainder, never placed in the returned order. -/
theorem sortClosure_absent_hard_dep_blocks (closure : List WPMPackage)
    (X : WPMPackage) (dn : String) (r : Option String)
    (hdep : (dn, r) ∈ X.dependencyMap)
    (habs : dn ∉ closure.map WPMPackage.name) :
    X ∉ sortClosure closure := by
  intro hX
  obtain ⟨hpl, rest, hperm⟩ := sortClosure_main closure
  obtain ⟨i, hiX⟩ := List.mem_iff_getElem?.mp hX
  have hdn : dn ∈ ((sortClosure closure).take i).map WPMPackage.name :=
    (hpl i X hiX).1 (dn, r) hdep
  have hdn2 : dn ∈ (sortClosure closure).map WPMPackage.name :=
    List.map_subset WPMPackage.name (List.take_subset i (sortClosure closure)) hdn
  exact habs (hperm.mem_iff.mp (List.mem_append.mpr (Or.inl hdn2)))

/-- C3 amended witness: the concrete blocked package. -/
theorem sortClosure_absent_hard_dep_blocks_witness :
    ("Y", (none : Option String)) ∈ pkgMissingDep.dependencyMap ∧
    "Y" ∉ ([pkgMissingDep].map WPMPackage.name) ∧
    pkgMissingDep ∉ sortClosure [pkgMissingDep] :=
  ⟨by decide, by decide,
    sortClosure_absent_hard_dep_blocks [pkgMissingDep] pkgMissingDep "Y" none
      (by decide) (by decide)⟩

theorem resStep_refl (st : ResState) : ResStep st st :=
  ⟨⟨[], by simp⟩, ⟨[], by simp⟩, fun _ h1 h2 => absurd h1 h2⟩

theorem resStep_trans {s1 s2 s3 : ResState} (a : ResStep s1 s2) (b : ResStep s2 s3) :
    ResStep s1 s3 := by
  obtain ⟨⟨t1, ht1⟩, ⟨c1, hc1⟩, hn1⟩ := a
  obtain ⟨⟨t2, ht2⟩, ⟨c2, hc2⟩, hn2⟩ := b
  refine ⟨⟨t1 ++ t2, by rw [ht2, ht1, List.append_assoc]⟩,
    ⟨c1 ++ c2, by rw [hc2, hc1, List.append_assoc]⟩, ?_⟩
  intro n h3 h1
  by_cases h2 : n ∈ s2.converted.map WPMPackage.name
  · exact hn1 n h2 h1
  · have hnot := hn2 n h3 h2
    rw [ht1] at hnot
    intro hmem
    exact hnot (List.mem_append.mpr (Or.inl hmem))

theorem resolver_push_step (st stD : ResState) (pkg : WPMPackage)
    (h : ResInv st)
    (hguard : pkg.name ∉ st.alreadySorting)
    (hInvD : ResInv stD)
    (hstep : ResStep { st with alreadySorting := st.alreadySorting ++ [pkg.name] } stD) :
    ResInv { stD with converted := stD.converted ++ [pkg] } ∧
    ResStep st { stD with converted := stD.converted ++ [pkg] } := by
  obtain ⟨⟨t, ht0⟩, ⟨c, hc0⟩, hnew0⟩ := hstep
  have ht : stD.alreadySorting = (st.alreadySorting ++ [pkg.name]) ++ t := ht0
  have hc : stD.converted = st.converted ++ c := hc0
  have hnew : ∀ n, n ∈ stD.converted.map WPMPackage.name →
      n ∉ st.converted.map WPMPackage.name →
      n ∉ st.alreadySorting ++ [pkg.name] := hnew0
  have hnamefresh : pkg.name ∉ stD.converted.map WPMPackage.name := by
    intro hmem
    by_cases hold : pkg.name ∈ st.converted.map WPMPackage.name
    · exact hguard (h.2 _ hold)
    · exact hnew _ hmem hold (List.mem_append.mpr (Or.inr (by simp)))
  refine ⟨⟨?_, ?_⟩, ⟨[pkg.name] ++ t, ?_⟩, ⟨c ++ [pkg], ?_⟩, ?_⟩
  · show ((stD.converted ++ [pkg]).map WPMPackage.name).Nodup
    simp only [List.map_append, List.map_cons, List.map_nil]
    rw [List.nodup_append]
    refine ⟨hInvD.1, List.nodup_singleton _, ?_⟩
    intro x hx hx2
    simp only [List.mem_singleton] at hx2
    subst hx2
    exact hnamefresh hx
  · show ∀ n ∈ (stD.converted ++ [pkg]).map WPMPackage.name, n ∈ stD.alreadySorting
    intro n hn
    simp only [List.map_append, List.map_cons, List.map_nil, List.mem_append,
      List.mem_singleton] at hn
    rcases hn with hn | hn
    · exact hInvD.2 n hn
    · subst hn
      rw [ht]
      exact List.mem_append.mpr (Or.inl (List.mem_append.mpr (Or.inr (by simp))))
  · show stD.alreadySorting = st.alreadySorting ++ ([pkg.name] ++ t)
    rw [ht, List.append_assoc]
  · show stD.converted ++ [pkg] = st.converted ++ (c ++ [pkg])
    rw [hc, List.append_assoc]
  · show ∀ n, n ∈ (stD.converted ++ [pkg]).map WPMPackage.name →
      n ∉ st.converted.map WPMPackage.name → n ∉ st.alreadySorting
    intro n hn1 hn2
    simp only [List.map_append, List.map_cons, List.map_nil, List.mem_append,
      List.mem_singleton] at hn1
    rcases hn1 with hn1 | hn1
    · have hnot := hnew n hn1 hn2
      intro hmem
      exact hnot (List.mem_append.mpr (Or.inl hmem))
    · subst hn1
      exact hguard

theorem addPackage_main (fetchO : String → Option DescriptorJson) :
    ∀ fuel name st, ResInv st →
      ResInv (addPackage fetchO fuel st name) ∧
      ResStep st (addPackage fetchO fuel st name) := by
  intro fuel
  induction fuel with
  | zero => intro name st h; exact ⟨h, resStep_refl st⟩
  | succ fuel ih =>
    have hfold : ∀ (l : List String) (st : ResState), ResInv st →
        ResInv (l.foldl (addPackage fetchO fuel) st) ∧
        ResStep st (l.foldl (addPackage fetchO fuel) st) := by
      intro l
      induction l with
      | nil => intro st h; exact ⟨h, resStep_refl st⟩
      | cons n rest ihl =>
        intro st h
        obtain ⟨h1, h2⟩ := ih n st h
        obtain ⟨h3, h4⟩ := ihl _ h1
        exact ⟨h3, resStep_trans h2 h4⟩
    intro name st h
    by_cases hguard : name ∈ st.alreadySorting
    · simp only [addPackage, if_pos hguard]
      exact ⟨h, resStep_refl st⟩
    · simp only [addPackage, if_neg hguard]
      cases hf : fetchO name with
      | none =>
        refine ⟨⟨h.1, fun n hn => List.mem_append.mpr (Or.inl (h.2 n hn))⟩,
          ⟨[name], rfl⟩, ⟨[], by simp⟩, fun n hn1 hn2 => absurd hn1 hn2⟩
      | some j =>
        have hInv1 : ResInv { st with alreadySorting := st.alreadySorting ++ [name] } :=
          ⟨h.1, fun n hn => List.mem_append.mpr (Or.inl (h.2 n hn))⟩
        obtain ⟨hInv2, hStep12⟩ :=
          hfold ((mkWPMPackage name none j).dependencyMap.map Prod.fst)
            { st with alreadySorting := st.alreadySorting ++ [name] } hInv1
        exact resolver_push_step st _ (mkWPMPackage name none j) h hguard hInv2 hStep12

theorem addPackage_fold_main (fetchO : String → Option DescriptorJson) (fuel : Nat) :
    ∀ (l : List String) (st : ResState), ResInv st →
      ResInv (l.foldl (addPackage fetchO fuel) st) ∧
      ResStep st (l.foldl (addPackage fetchO fuel) st) := by
  intro l
  induction l with
  | nil => intro st h; exact ⟨h, resStep_refl st⟩
  | cons n rest ihl =>
    intro st h
    obtain ⟨h1, h2⟩ := addPackage_main fetchO fuel n st h
    obtain ⟨h3, h4⟩ := ihl _ h1
    exact ⟨h3, resStep_trans h2 h4⟩

/-- C5: each package name enters resolution at most once per resolution
pass, guarded by the `alreadySorting` set: the closure never contains two
descriptors with the same name (for any oracle, fuel and request list);
resolving the cyclic graph A → B → A terminates (the result is the same
for every recursion-depth budget of at least 3) with each of A and B
resolved exactly once; and resolving the diamond where A and B both
require C yields exactly one descriptor for C in the closure. -/
theorem resolver_guard_spec :
    (∀ (fetchO : String → Option DescriptorJson) (fuel : Nat) (names : List String),
      ((findClosure fetchO fuel names).converted.map WPMPackage.name).Nodup) ∧
    (∀ extra : Nat,
      ((findClosure cycleFetch (extra + 3) ["A"]).converted.map WPMPackage.name)
        = ["B", "A"]) ∧
    ((findClosure diamondFetch 5 ["A", "B"]).converted.map WPMPackage.name).count "C"
      = 1 := by
  refine ⟨?_, ?_, ?_⟩
  · intro fetchO fuel names
    exact (addPackage_fold_main fetchO fuel names {} ⟨by simp, by simp⟩).1.1
  · intro extra
    simp [findClosure, addPackage, cycleFetch, mkWPMPackage, WPMPackage.updateFromJson,
      applyOpt, parseDepEntry, splitOnSpace, splitOnSpaceAux, stripHash, stripHashList,
      assocSet]
  · decide

/-- C8 counterexample: a package requested with no request-time options
whose descriptor declares `appendMethod: "prepend"` is attached with the
process default `"append"`: the descriptor-declared install option does
not beat the process default, because `updateFromJson` (line 1511) never
copies install options out of the descriptor document. -/
theorem descriptor_options_ignored_counterexample :
    (requireEffectiveOptions { repository := some (some "repoR") } {} "P"
      { appendMethod := some "prepend" }).appendMethod = some "append" ∧
    (requireEffectiveOptions { repository := some (some "repoR") } {} "P"
      { appendMethod := some "prepend" }).appendMethod ≠ some "prepend" := by
  exact ⟨by decide, by decide⟩

/-- C8 amended: the install options used at attach time follow the
precedence chain request-time global overrides > per-package request
overrides > process defaults, last-write-wins per field; the package's
descriptor-declared install options never participate (`updateFromJson`
copies only version, friendlyName, dependencies, optionalDependencies,
assets, description, changelog, documentationLink and license).  In
particular a per-request `{appendMethod: "prepend"}` override on P beats
a descriptor-declared `{appendMethod: "append"}` and P is attached with
`"prepend"`. -/
theorem require_option_precedence :
    (∀ (reqOpts overrideOpts : OptionsBag) (pkgName : String) (j : DescriptorJson),
      requireEffectiveOptions reqOpts overrideOpts pkgName j
        = assignO defaultOptionsBag (assignO reqOpts overrideOpts)) ∧
    (requireEffectiveOptions { repository := some (some "repoR") }
      { appendMethod := some "prepend" } "P"
      { appendMethod := some "append" }).appendMethod = some "prepend" := by
  constructor
  · intro reqOpts overrideOpts pkgName j
    obtain ⟨ram, rat, rrep, rb⟩ := reqOpts
    obtain ⟨oam, oat, orep, ob⟩ := overrideOpts
    cases ram <;> cases rat <;> cases rrep <;> cases rb <;>
      cases oam <;> cases oat <;> cases orep <;> cases ob <;> rfl
  · decide

/-- `installPhase` succeeds exactly when every task body succeeds. -/
theorem installPhase_ok_iff (step : String → Except String Unit)
    (l : List WPMPackage) :
    installPhase step l = Except.ok () ↔ ∀ p ∈ l, step p.name = Except.ok () := by
  induction l with
  | nil => simp [installPhase]
  | cons p rest ih =>
    simp only [installPhase]
    cases hs : step p.name with
    | ok u =>
      cases u
      simp [hs, ih, List.forall_mem_cons]
    | error e =>
      simp [hs, List.forall_mem_cons]

/-- C4 counterexample: with a resolvable package A whose install task body
throws, the top-level require call rejects with that error instead of
resolving. -/
theorem require_rejects_counterexample :
    requireModel fetchABC stepFailA 2 ["A"] = Except.error "boom" := by decide

/-- C4 amended: resolution-phase failures are contained — a package whose
descriptor fetch fails is skipped and the call continues, so three
independent packages with one failing fetch still install the other two —
but an install-phase failure is NOT contained: the top-level require
resolves exactly when every placed package's install step succeeds, and
any install-task rejection makes the whole call reject. -/
theorem require_resolves_iff_install_steps_ok :
    (∀ (fetchO : String → Option DescriptorJson)
       (step : String → Except String Unit) (fuel : Nat) (names : List String),
      (requireModel fetchO step fuel names = Except.ok () ↔
        ∀ p ∈ sortClosure (findClosure fetchO fuel names).converted,
          step p.name = Except.ok ())) ∧
    (requireModel fetchABC stepOkAll 2 ["A", "B", "C"] = Except.ok () ∧
      (sortClosure (findClosure fetchABC 2 ["A", "B", "C"]).converted).map
        WPMPackage.name = ["A", "C"]) := by
  refine ⟨fun fetchO step fuel names => installPhase_ok_iff step _, by decide, by decide⟩

/-- C4 amended witness: a concrete require with all steps succeeding
resolves. -/
theorem require_resolves_iff_install_steps_ok_witness :
    requireModel fetchABC stepOkAll 2 ["A", "C"] = Except.ok () :=
  (require_resolves_iff_install_steps_ok.1 fetchABC stepOkAll 2 ["A", "C"]).mpr
    (by decide)

/-- C6 counterexample: two asset-manifest fetches of the same key, the
second issued 1 ms after the first while the first is still in flight
(well inside the staleness window), perform TWO network calls and the
second is not shared with the one in flight — the claimed
exactly-one-network-call / in-flight-sharing behaviour fails for the
asset-manifest cache. -/
theorem assets_inflight_not_shared_counterexample :
    ((assetsFetchStart (assetsFetchStart {} "u" 0).2 "u" 1).2).netLog
      = [("u", 0), ("u", 1)] ∧
    (assetsFetchStart (assetsFetchStart {} "u" 0).2 "u" 1).1
      = AssetsFetchResult.started := by decide

/-- C6 amended: for both caches an entry older than the window is never
returned, a completed entry within the window is returned without a
network call, and a fetch once the entry is stale issues a new network
call; but only the descriptor (DOM) cache shares an in-flight fetch with
concurrent callers — the asset-manifest cache stores nothing until
completion, so a concurrent second fetch of the same key performs a
second network call. -/
theorem cache_ttl_spec :
    (∀ st url now d st2, domFetchStart st url now = (DomFetchResult.hit d, st2) →
      ∃ ts, assocLookup st.domCache url = some (DomEntry.done d ts) ∧
        now - ts < cacheTimeout) ∧
    (∀ st url now a st2, assetsFetchStart st url now = (AssetsFetchResult.hit a, st2) →
      ∃ ts, assocLookup st.assetsCache url = some (a, ts) ∧ now - ts < cacheTimeout) ∧
    (∀ st url now d ts, assocLookup st.domCache url = some (DomEntry.done d ts) →
      now - ts < cacheTimeout → domFetchStart st url now = (DomFetchResult.hit d, st)) ∧
    (∀ st url now a ts, assocLookup st.assetsCache url = some (a, ts) →
      now - ts < cacheTimeout →
      assetsFetchStart st url now = (AssetsFetchResult.hit a, st)) ∧
    (∀ st url now d ts, assocLookup st.domCache url = some (DomEntry.done d ts) →
      cacheTimeout ≤ now - ts →
      ((domFetchStart st url now).2).netLog = st.netLog ++ [(url, now)]) ∧
    (∀ st url now a ts, assocLookup st.assetsCache url = some (a, ts) →
      cacheTimeout ≤ now - ts →
      ((assetsFetchStart st url now).2).netLog = st.netLog ++ [(url, now)]) ∧
    (∀ st url now pid, assocLookup st.domCache url = some (DomEntry.pending pid) →
      domFetchStart st url now = (DomFetchResult.joined pid, st)) := by
  refine ⟨?_, ?_, ?_, ?_, ?_, ?_, ?_⟩
  · intro st url now d st2 h
    simp only [domFetchStart] at h
    split at h
    next d0 ts hl =>
      split at h
      next hfr =>
        simp only [Prod.mk.injEq, DomFetchResult.hit.injEq] at h
        exact ⟨ts, by rw [hl, h.1], hfr⟩
      next hfr =>
        simp only [Prod.mk.injEq] at h
        exact absurd h.1 (by intro hh; cases hh)
    next pid hl =>
      simp only [Prod.mk.injEq] at h
      exact absurd h.1 (by intro hh; cases hh)
    next hl =>
      simp only [Prod.mk.injEq] at h
      exact absurd h.1 (by intro hh; cases hh)
  · intro st url now a st2 h
    simp only [assetsFetchStart] at h
    split at h
    next a0 ts hl =>
      split at h
      next hfr =>
        simp only [Prod.mk.injEq, AssetsFetchResult.hit.injEq] at h
        exact ⟨ts, by rw [hl, h.1], hfr⟩
      next hfr =>
        simp only [Prod.mk.injEq] at h
        exact absurd h.1 (by intro hh; cases hh)
    next hl =>
      simp only [Prod.mk.injEq] at h
      exact absurd h.1 (by intro hh; cases hh)
  · intro st url now d ts hl hfr
    simp only [domFetchStart, hl]
    rw [if_pos hfr]
  · intro st url now a ts hl hfr
    simp only [assetsFetchStart, hl]
    rw [if_pos hfr]
  · intro st url now d ts hl hst
    simp only [domFetchStart, hl]
    rw [if_neg (by omega)]
  · intro st url now a ts hl hst
    simp only [assetsFetchStart, hl]
    rw [if_neg (by omega)]
  · intro st url now pid hl
    simp only [domFetchStart, hl]

/-- C6 amended witness: a fresh completed entry is returned from each cache
without a network call. -/
theorem cache_ttl_spec_witness :
    domFetchStart { domCache := [("u", DomEntry.done 7 0)] } "u" 3
      = (DomFetchResult.hit 7, { domCache := [("u", DomEntry.done 7 0)] }) ∧
    assetsFetchStart { assetsCache := [("v", (9, 0))] } "v" 3
      = (AssetsFetchResult.hit 9, { assetsCache := [("v", (9, 0))] }) :=
  ⟨cache_ttl_spec.2.2.1 _ "u" 3 7 0 (by decide) (by decide),
   cache_ttl_spec.2.2.2.1 _ "v" 3 9 0 (by decide) (by decide)⟩

theorem fetchDomListAux_repeat (net : String → Option Nat) (t0 : Nat)
    (f g : List (String × SeqEntry) → String →
      Option Nat × List (String × SeqEntry) × List String)
    (hf : ∀ st u, SeqAgrees net t0 st →
      SeqAgrees net t0 (f st u).2.1 ∧ SeqExtends st (f st u).2.1 ∧
      ∀ st2, SeqAgrees net t0 st2 → SeqExtends (f st u).2.1 st2 →
        g st2 u = ((f st u).1, st2, [])) :
    ∀ us st, SeqAgrees net t0 st →
      SeqAgrees net t0 (fetchDomListAux f st us).2.1 ∧
      SeqExtends st (fetchDomListAux f st us).2.1 ∧
      ∀ st2, SeqAgrees net t0 st2 →
        SeqExtends (fetchDomListAux f st us).2.1 st2 →
        fetchDomListAux g st2 us = ((fetchDomListAux f st us).1, st2, []) := by
  intro us
  induction us with
  | nil =>
    intro st h
    exact ⟨h, fun u e he => he, fun st2 h2 hext => rfl⟩
  | cons u rest ih =>
    intro st h
    obtain ⟨ha, hb, hc⟩ := hf st u h
    rcases hfu : f st u with ⟨r1, stm, gg⟩
    rw [hfu] at ha hb hc
    cases r1 with
    | some d =>
      have hrun1 : fetchDomListAux f st (u :: rest) = (some d, stm, gg) := by
        simp only [fetchDomListAux, hfu]
      rw [hrun1]
      refine ⟨ha, hb, ?_⟩
      intro st2 h2 hext
      have hg : g st2 u = (some d, st2, []) := hc st2 h2 hext
      simp only [fetchDomListAux, hg]
    | none =>
      rcases hR : fetchDomListAux f stm rest with ⟨R1, Rst, Rg⟩
      obtain ⟨hA, hB, hC⟩ := ih stm ha
      rw [hR] at hA hB hC
      have hrun1 : fetchDomListAux f st (u :: rest) = (R1, Rst, gg ++ Rg) := by
        simp only [fetchDomListAux, hfu, hR]
      rw [hrun1]
      refine ⟨hA, fun k e he => hB k e (hb k e he), ?_⟩
      intro st2 h2 hext
      have hextm : SeqExtends stm st2 := fun k e he => hext k e (hB k e he)
      have hg : g st2 u = (none, st2, []) := hc st2 h2 hextm
      have hrest : fetchDomListAux g st2 rest = (R1, st2, []) := hC st2 h2 hext
      simp only [fetchDomListAux, hg, hrest, List.nil_append]

theorem fetchDomSeq_repeat_main (env : AliasEnv) (net : String → Option Nat)
    (t0 t1 : Nat) (h01 : t1 - t0 < cacheTimeout) :
    ∀ fuel url st, SeqAgrees net t0 st →
      SeqAgrees net t0 (fetchDomSeq env net fuel st url t0).2.1 ∧
      SeqExtends st (fetchDomSeq env net fuel st url t0).2.1 ∧
      ∀ st2, SeqAgrees net t0 st2 →
        SeqExtends (fetchDomSeq env net fuel st url t0).2.1 st2 →
        fetchDomSeq env net fuel st2 url t1
          = ((fetchDomSeq env net fuel st url t0).1, st2, []) := by
  intro fuel
  induction fuel with
  | zero =>
    intro url st h
    exact ⟨h, fun u e he => he, fun st2 h2 hext => rfl⟩
  | succ fuel ih =>
    intro url st h
    cases hla : lookupRepoAlias env url with
    | arr us =>
      have hrw1 : fetchDomSeq env net (fuel + 1) st url t0
          = fetchDomListAux (fun s u => fetchDomSeq env net fuel s u t0) st us := by
        simp only [fetchDomSeq, hla]
      have hrw2 : ∀ st2, fetchDomSeq env net (fuel + 1) st2 url t1
          = fetchDomListAux (fun s u => fetchDomSeq env net fuel s u t1) st2 us := by
        intro st2
        simp only [fetchDomSeq, hla]
      obtain ⟨hA, hB, hC⟩ := fetchDomListAux_repeat net t0
        (fun s u => fetchDomSeq env net fuel s u t0)
        (fun s u => fetchDomSeq env net fuel s u t1)
        (fun s u hs => ih u s hs) us st h
      rw [hrw1]
      refine ⟨hA, hB, ?_⟩
      intro st2 h2 hext
      rw [hrw2 st2]
      exact hC st2 h2 hext
    | str u0 =>
      cases hlk : assocLookup st (fixRawSuffix u0) with
      | some e =>
        cases e with
        | ok d ts =>
          have hag := h (fixRawSuffix u0) (SeqEntry.ok d ts) hlk
          have hts : ts = t0 := hag.2
          have hfresh0 : t0 - ts < cacheTimeout := by
            rw [hts]
            simp [cacheTimeout]
          have hrun1 : fetchDomSeq env net (fuel + 1) st url t0 = (some d, st, []) := by
            simp only [fetchDomSeq, hla, hlk]
            rw [if_pos hfresh0]
          rw [hrun1]
          refine ⟨h, fun u e he => he, ?_⟩
          intro st2 h2 hext
          have hlk2 : assocLookup st2 (fixRawSuffix u0) = some (SeqEntry.ok d ts) :=
            hext _ _ hlk
          have hfresh1 : t1 - ts < cacheTimeout := by
            rw [hts]
            exact h01
          simp only [fetchDomSeq, hla, hlk2]
          rw [if_pos hfresh1]
        | failed =>
          have hrun1 : fetchDomSeq env net (fuel + 1) st url t0 = (none, st, []) := by
            simp only [fetchDomSeq, hla, hlk]
          rw [hrun1]
          refine ⟨h, fun u e he => he, ?_⟩
          intro st2 h2 hext
          have hlk2 : assocLookup st2 (fixRawSuffix u0) = some SeqEntry.failed :=
            hext _ _ hlk
          simp only [fetchDomSeq, hla, hlk2]
      | none =>
        cases hnet : net (fixRawSuffix u0) with
        | some d2 =>
          have hrun1 : fetchDomSeq env net (fuel + 1) st url t0
              = (some d2, assocSet st (fixRawSuffix u0) (SeqEntry.ok d2 t0),
                 [fixRawSuffix u0]) := by
            simp only [fetchDomSeq, hla, hlk, hnet]
          rw [hrun1]
          refine ⟨?_, ?_, ?_⟩
          · intro u e he
            by_cases hu : u = fixRawSuffix u0
            · subst hu
              rw [assocLookup_assocSet_self] at he
              cases he
              exact ⟨hnet, rfl⟩
            · rw [assocLookup_assocSet_other _ _ _ _ hu] at he
              exact h u e he
          · intro u e he
            by_cases hu : u = fixRawSuffix u0
            · subst hu
              rw [hlk] at he
              cases he
            · rw [assocLookup_assocSet_other _ _ _ _ hu]
              exact he
          · intro st2 h2 hext
            have hlk2 : assocLookup st2 (fixRawSuffix u0)
                = some (SeqEntry.ok d2 t0) :=
              hext _ _ (by rw [assocLookup_assocSet_self])
            simp only [fetchDomSeq, hla, hlk2]
            rw [if_pos h01]
        | none =>
          have hrun1 : fetchDomSeq env net (fuel + 1) st url t0
              = (none, assocSet st (fixRawSuffix u0) SeqEntry.failed,
                 [fixRawSuffix u0]) := by
            simp only [fetchDomSeq, hla, hlk, hnet]
          rw [hrun1]
          refine ⟨?_, ?_, ?_⟩
          · intro u e he
            by_cases hu : u = fixRawSuffix u0
            · subst hu
              rw [assocLookup_assocSet_self] at he
              cases he
              exact hnet
            · rw [assocLookup_assocSet_other _ _ _ _ hu] at he
              exact h u e he
          · intro u e he
            by_cases hu : u = fixRawSuffix u0
            · subst hu
              rw [hlk] at he
              cases he
            · rw [assocLookup_assocSet_other _ _ _ _ hu]
              exact he
          · intro st2 h2 hext
            have hlk2 : assocLookup st2 (fixRawSuffix u0) = some SeqEntry.failed :=
              hext _ _ (by rw [assocLookup_assocSet_self])
            simp only [fetchDomSeq, hla, hlk2]

/-- C7 counterexample: fetching the alias `a` (which expands to the default
ordered candidate list) succeeds via the candidate `/a/?raw`, but the
resulting cache entry is stored under the resolved candidate URL, NOT
under the originally requested alias key `a`. -/
theorem alias_cache_key_counterexample :
    assocLookup (fetchDomSeq {} netA 3 [] "a" 0).2.1 "a" = none ∧
    assocLookup (fetchDomSeq {} netA 3 [] "a" 0).2.1 "/a/?raw"
      = some (SeqEntry.ok 7 0) ∧
    (fetchDomSeq {} netA 3 [] "a" 0).1 = some 7 := by decide

/-- C7 amended: `fetchDom` tries an alias's candidate locations in order
and returns the first success (the netB conjunct shows the first
candidate attempted, failing, and the second returned), but it caches
under the RESOLVED candidate URL rather than the requested alias key; a
repeated lookup of the same alias within the staleness window
re-resolves the alias to the same candidates, hits the candidate-keyed
entries, and returns the same result with no new network request. -/
theorem alias_repeat_lookup_no_refetch :
    (∀ (env : AliasEnv) (net : String → Option Nat) (fuel : Nat) (aname : String)
       (t0 t1 : Nat), t1 - t0 < cacheTimeout →
      fetchDomSeq env net fuel (fetchDomSeq env net fuel [] aname t0).2.1 aname t1
        = ((fetchDomSeq env net fuel [] aname t0).1,
           (fetchDomSeq env net fuel [] aname t0).2.1, [])) ∧
    fetchDomSeq {} netB 3 [] "b" 0
      = (some 9, [("/b/?raw", SeqEntry.failed), ("/b/index.html", SeqEntry.ok 9 0)],
         ["/b/?raw", "/b/index.html"]) := by
  constructor
  · intro env net fuel aname t0 t1 h01
    obtain ⟨ha, hb, hc⟩ := fetchDomSeq_repeat_main env net t0 t1 h01 fuel aname []
      (fun u e he => by simp [assocLookup] at he)
    exact hc _ ha (fun u e he => he)
  · decide

/-- C7 amended witness: the concrete repeated alias lookup. -/
theorem alias_repeat_lookup_no_refetch_witness :
    fetchDomSeq {} netA 3 (fetchDomSeq {} netA 3 [] "a" 0).2.1 "a" 1
      = (some 7, (fetchDomSeq {} netA 3 [] "a" 0).2.1, []) := by
  have h := alias_repeat_lookup_no_refetch.1 {} netA 3 "a" 0 1 (by decide)
  rw [h]
  decide

theorem scanMaps_eq_some {ms : List (List (String × Nat))} {n : String} {t : Nat}
    (h : scanMaps ms n = some t) : ∃ m ∈ ms, assocLookup m n = some t := by
  induction ms with
  | nil => simp [scanMaps] at h
  | cons m rest ih =>
    simp only [scanMaps] at h
    cases hm : assocLookup m n with
    | some t2 =>
      rw [hm] at h
      cases h
      exact ⟨m, List.mem_cons_self m rest, hm⟩
    | none =>
      rw [hm] at h
      obtain ⟨m2, hm2, hl⟩ := ih h
      exact ⟨m2, List.mem_cons_of_mem m hm2, hl⟩

theorem scanMaps_eq_none {ms : List (List (String × Nat))} {n : String}
    (h : scanMaps ms n = none) : ∀ m ∈ ms, assocLookup m n = none := by
  induction ms with
  | nil => intro m hm; simp at hm
  | cons m rest ih =>
    simp only [scanMaps] at h
    cases hm : assocLookup m n with
    | some t2 =>
      rw [hm] at h
      cases h
    | none =>
      rw [hm] at h
      intro m2 hm2
      rcases List.mem_cons.mp hm2 with hh | hh
      · rw [hh]
        exact hm
      · exact ih h m2 hh

theorem processName_foldInv (base : ReqState) (hbase : ReqInvariant base)
    (acc : List (String × Nat) × Nat × List (String × Nat)) (n : String)
    (h : FoldInv base acc) : FoldInv base (processName base.maps acc n) := by
  obtain ⟨h1, h2, h3, h4, ⟨newc, h5⟩, h6⟩ := h
  simp only [processName]
  cases hscan : scanMaps (base.maps ++ [acc.1]) n with
  | some t =>
    obtain ⟨m0, hm0, hl0⟩ := scanMaps_eq_some hscan
    have hprops : t < acc.2.1 ∧ (n, t) ∈ acc.2.2 ∧
        (∀ m ∈ base.maps, ∀ t2, assocLookup m n = some t2 → t = t2) := by
      rcases List.mem_append.mp hm0 with hin | hin
      · have hb := hbase.1 m0 hin n t hl0
        refine ⟨Nat.lt_of_lt_of_le hb.1 h1, ?_, ?_⟩
        · rw [h5]
          exact List.mem_append.mpr (Or.inl hb.2)
        · intro m hm t2 hlt2
          exact hbase.2.2.2 m0 hin m hm n t t2 hl0 hlt2
      · have heq : m0 = acc.1 := by simpa using hin
        rw [heq] at hl0
        exact ⟨(h2 n t hl0).1, (h2 n t hl0).2,
          fun m hm t2 hlt2 => h6 n t hl0 m hm t2 hlt2⟩
    refine ⟨h1, ?_, h3, h4, ⟨newc, h5⟩, ?_⟩
    · intro p t2 hp
      by_cases hpn : p = n
      · subst hpn
        rw [assocLookup_assocSet_self] at hp
        cases hp
        exact ⟨hprops.1, hprops.2.1⟩
      · rw [assocLookup_assocSet_other _ _ _ _ hpn] at hp
        exact h2 p t2 hp
    · intro p t2 hp m hm t3 hl3
      by_cases hpn : p = n
      · subst hpn
        rw [assocLookup_assocSet_self] at hp
        cases hp
        exact hprops.2.2 m hm t3 hl3
      · rw [assocLookup_assocSet_other _ _ _ _ hpn] at hp
        exact h6 p t2 hp m hm t3 hl3
  | none =>
    have hnone := scanMaps_eq_none hscan
    refine ⟨Nat.le_succ_of_le h1, ?_, ?_, ?_,
      ⟨newc ++ [(n, acc.2.1)], by rw [h5, List.append_assoc]⟩, ?_⟩
    · intro p t hp
      by_cases hpn : p = n
      · subst hpn
        rw [assocLookup_assocSet_self] at hp
        cases hp
        exact ⟨Nat.lt_succ_self _, List.mem_append.mpr (Or.inr (by simp))⟩
      · rw [assocLookup_assocSet_other _ _ _ _ hpn] at hp
        have hb := h2 p t hp
        exact ⟨Nat.lt_succ_of_lt hb.1, List.mem_append.mpr (Or.inl hb.2)⟩
    · intro p t hp
      rcases List.mem_append.mp hp with hh | hh
      · exact Nat.lt_succ_of_lt (h3 p t hh)
      · simp only [List.mem_singleton, Prod.mk.injEq] at hh
        rw [hh.2]
        exact Nat.lt_succ_self _
    · simp only [List.map_append, List.map_cons, List.map_nil]
      rw [List.nodup_append]
      refine ⟨h4, List.nodup_singleton _, ?_⟩
      intro x hx hx2
      simp only [List.mem_singleton] at hx2
      subst hx2
      obtain ⟨⟨p0, t0⟩, hp0, ht0⟩ := List.mem_map.mp hx
      have hb := h3 p0 t0 hp0
      simp only at ht0
      omega
    · intro p t hp m hm t2 hl2
      by_cases hpn : p = n
      · subst hpn
        have hz := hnone m (List.mem_append.mpr (Or.inl hm))
        rw [hz] at hl2
        cases hl2
      · rw [assocLookup_assocSet_other _ _ _ _ hpn] at hp
        exact h6 p t hp m hm t2 hl2

theorem startRequire_invariant (s : ReqState) (names : List String)
    (h : ReqInvariant s) : ReqInvariant (startRequire s names) := by
  have hkeep : ∀ (l : List String) acc, FoldInv s acc →
      FoldInv s (l.foldl (processName s.maps) acc) := by
    intro l
    induction l with
    | nil => intro acc ha; exact ha
    | cons n rest ih =>
      intro acc ha
      exact ih _ (processName_foldInv s h acc n ha)
  have hinit : FoldInv s ([], s.counter, s.creations) := by
    refine ⟨Nat.le_refl _, ?_, h.2.1, h.2.2.1, ⟨[], by simp⟩, ?_⟩
    · intro p t hp
      simp [assocLookup] at hp
    · intro p t hp
      simp [assocLookup] at hp
  obtain ⟨hf1, hf2, hf3, hf4, ⟨newc, hf5⟩, hf6⟩ := hkeep names _ hinit
  simp only [startRequire]
  refine ⟨?_, hf3, hf4, ?_⟩
  · intro m hm p t hp
    rcases List.mem_append.mp hm with hin | hin
    · have hb := h.1 m hin p t hp
      refine ⟨Nat.lt_of_lt_of_le hb.1 hf1, ?_⟩
      rw [hf5]
      exact List.mem_append.mpr (Or.inl hb.2)
    · have heq := List.mem_singleton.mp hin
      rw [heq] at hp
      exact hf2 p t hp
  · intro m1 hm1 m2 hm2 p t1 t2 e1 e2
    rcases List.mem_append.mp hm1 with hin1 | hin1 <;>
      rcases List.mem_append.mp hm2 with hin2 | hin2
    · exact h.2.2.2 m1 hin1 m2 hin2 p t1 t2 e1 e2
    · have heq := List.mem_singleton.mp hin2
      rw [heq] at e2
      exact (hf6 p t2 e2 m1 hin1 t1 e1).symm
    · have heq := List.mem_singleton.mp hin1
      rw [heq] at e1
      exact hf6 p t1 e1 m2 hin2 t2 e2
    · have heq1 := List.mem_singleton.mp hin1
      have heq2 := List.mem_singleton.mp hin2
      rw [heq1] at e1
      rw [heq2] at e2
      exact Option.some.inj (e1.symm.trans e2)

theorem endRequire_invariant (s : ReqState) (i : Nat) (h : ReqInvariant s) :
    ReqInvariant (endRequire s i) := by
  have hsub : ∀ m, m ∈ s.maps.eraseIdx i → m ∈ s.maps :=
    fun m hm => (List.eraseIdx_sublist s.maps i).subset hm
  exact ⟨fun m hm p t hp => h.1 m (hsub m hm) p t hp, h.2.1, h.2.2.1,
    fun m1 hm1 m2 hm2 p t1 t2 e1 e2 =>
      h.2.2.2 m1 (hsub m1 hm1) m2 (hsub m2 hm2) p t1 t2 e1 e2⟩

theorem execOps_invariant (ops : List ReqOp) : ReqInvariant (execOps ops) := by
  have hinit : ReqInvariant ({} : ReqState) := by
    refine ⟨?_, ?_, ?_, ?_⟩
    · intro m hm
      simp at hm
    · intro p t hp
      simp at hp
    · simp
    · intro m1 hm1
      simp at hm1
  have hstep : ∀ (l : List ReqOp) (s : ReqState), ReqInvariant s →
      ReqInvariant (l.foldl execOp s) := by
    intro l
    induction l with
    | nil => intro s hs; exact hs
    | cons op rest ih =>
      intro s hs
      refine ih _ ?_
      cases op with
      | start ns => exact startRequire_invariant s ns hs
      | done i => exact endRequire_invariant s i hs
  exact hstep ops {} hinit

theorem processName_lookup_isSome (others : List (List (String × Nat)))
    (acc : List (String × Nat) × Nat × List (String × Nat)) (n p : String)
    (h : (assocLookup acc.1 p).isSome = true) :
    (assocLookup (processName others acc n).1 p).isSome = true := by
  simp only [processName]
  cases hscan : scanMaps (others ++ [acc.1]) n
  · by_cases hpn : p = n
    · subst hpn
      rw [assocLookup_assocSet_self]
      rfl
    · rw [assocLookup_assocSet_other _ _ _ _ hpn]
      exact h
  · by_cases hpn : p = n
    · subst hpn
      rw [assocLookup_assocSet_self]
      rfl
    · rw [assocLookup_assocSet_other _ _ _ _ hpn]
      exact h

theorem processName_binds (others : List (List (String × Nat)))
    (acc : List (String × Nat) × Nat × List (String × Nat)) (n : String) :
    (assocLookup (processName others acc n).1 n).isSome = true := by
  simp only [processName]
  cases hscan : scanMaps (others ++ [acc.1]) n
  · rw [assocLookup_assocSet_self]
    rfl
  · rw [assocLookup_assocSet_self]
    rfl

theorem foldl_processName_keeps (others : List (List (String × Nat))) :
    ∀ (l : List String) (acc : List (String × Nat) × Nat × List (String × Nat))
      (p : String), (assocLookup acc.1 p).isSome = true →
      (assocLookup (l.foldl (processName others) acc).1 p).isSome = true := by
  intro l
  induction l with
  | nil => intro acc p h; exact h
  | cons n rest ih =>
    intro acc p h
    exact ih _ p (processName_lookup_isSome others acc n p h)

theorem startRequire_binds (s : ReqState) (names : List String) (P : String)
    (hP : P ∈ names) :
    ∃ m t, (startRequire s names).maps.getLast? = some m ∧
      assocLookup m P = some t := by
  obtain ⟨l1, l2, rfl⟩ := List.append_of_mem hP
  have hbind : (assocLookup ((l1 ++ P :: l2).foldl (processName s.maps)
      ([], s.counter, s.creations)).1 P).isSome = true := by
    rw [List.foldl_append, List.foldl_cons]
    exact foldl_processName_keeps s.maps l2 _ P (processName_binds s.maps _ P)
  obtain ⟨t, ht⟩ := Option.isSome_iff_exists.mp hbind
  refine ⟨_, t, ?_, ht⟩
  simp only [startRequire]
  exact List.getLast?_concat _

/-- C1: at every reachable state of the cross-request install scheduler,
any two running require calls that both hold a promise for package P hold
the SAME install task for it (so all overlapping callers observe the same
completion outcome); every promise held by a running call is a logged
task creation; no task identity is ever created twice, so the
attach/activate body shared by the overlapping calls runs exactly once;
and a require call whose tree contains P always records a promise for P
in its own (last-pushed) map. -/
theorem overlapping_requires_share_install_task (ops : List ReqOp) (P : String) :
    (∀ m1 ∈ (execOps ops).maps, ∀ m2 ∈ (execOps ops).maps, ∀ t1 t2,
      assocLookup m1 P = some t1 → assocLookup m2 P = some t2 → t1 = t2) ∧
    (∀ m ∈ (execOps ops).maps, ∀ t, assocLookup m P = some t →
      (P, t) ∈ (execOps ops).creations) ∧
    ((execOps ops).creations.map Prod.snd).Nodup ∧
    (∀ (s : ReqState) (names : List String), P ∈ names →
      ∃ m t, (startRequire s names).maps.getLast? = some m ∧
        assocLookup m P = some t) := by
  have h := execOps_invariant ops
  exact ⟨fun m1 h1 m2 h2 t1 t2 e1 e2 => h.2.2.2 m1 h1 m2 h2 P t1 t2 e1 e2,
    fun m hm t e => (h.1 m hm P t e).2, h.2.2.1,
    fun s names hP => startRequire_binds s names P hP⟩

/-- C1 witness: two overlapping require calls both containing `P` share the
single created task 0. -/
theorem overlapping_requires_share_install_task_witness :
    (0 : Nat) = 0 ∧
    ("P", 0) ∈ (execOps [ReqOp.start ["P"], ReqOp.start ["P"]]).creations := by
  have h := overlapping_requires_share_install_task
    [ReqOp.start ["P"], ReqOp.start ["P"]] "P"
  refine ⟨h.1 [("P", 0)] (by decide) [("P", 0)] (by decide) 0 0 (by decide)
    (by decide), ?_⟩
  exact h.2.1 [("P", 0)] (by decide) 0 (by decide)

end WPM
